import Mathlib

/-!
# Verification of the bonecoin UTXO wallet

Shallow embedding of the wallet crate (`src/lib.rs`) and the parts of
`bonecoin-core` it depends on (`address.rs`, `coin.rs`, `transaction.rs`,
`block.rs`, `node.rs`, `wallet.rs`).

Modelling decisions, all justified by the source or by the stated contract of
the mocked primitives:

* Identifiers (`CoinId`, `BlockId`, `TransactionId`) are `u64` hashes in the
  source, produced by `DefaultHasher`.  The only contract the system relies on
  is content-determinism and collision-freedom, so the hash is modelled as an
  injective executable encoding into `Nat` built from `Nat.pair`.  The sentinel
  parent of the genesis block is `BlockId(0)` in the source; encoded block ids
  are always positive, mirroring the assumption that no real hash collides with
  the sentinel.  Likewise `Input::dummy()` carries a fixed coin id assumed to
  collide with no real coin id; it is modelled as `0`, while real coin ids are
  always positive.
* `HashSet` fields (`addresses`, `coins`) are modelled as lists with
  set-semantics operations: membership-checked insertion, filtering removal.
  The unspecified iteration order of a `HashSet` becomes the list order, which
  is legitimate because the source treats the order as arbitrary ("an
  unspecified but deterministic-per-call order").
* `u64` arithmetic is modelled as `Nat`.  No claim settled here hinges on
  wrap-around behaviour.
* Rust panics (the `unwrap()` in `create_automatic_transaction`) are modelled
  by an `Option` layer: `none` is an abnormal termination.
* The two unbounded `while` loops of `sync` become: structural recursion on the
  height for the rollback loop (the height strictly decreases), and explicit
  fuel for the roll-forward loop.  Against a well-formed canonical chain `c`
  the forward loop provably stops by itself within `c.length` steps, so
  `syncChain` runs `sync` with fuel `c.length` and is a faithful rendering of
  the unbounded loop for such ledgers.
* `MockNode` (node.rs) answers `best_block_at_height` by walking the canonical
  chain from its best block and `entire_block` by lookup in its block store.
  Observed through the `NodeEndpoint` interface during one `sync`, such a node
  is exactly described by its canonical chain: `NodeEndpoint.ofChain` below.
-/

/-- The `Address` from bonecoin-core `address.rs`. -/
inductive Address where
  | Alice
  | Bob
  | Charlie
  | Dave
  | Eve
  | Custom (n : Nat)
deriving DecidableEq, Repr

/-- Mock `Signature` from bonecoin-core `address.rs`. -/
inductive Signature where
  | Valid (a : Address)
  | Invalid
deriving DecidableEq, Repr

/-- The `Coin` from bonecoin-core `coin.rs`: a value in bones and an owner. -/
structure Coin where
  value : Nat
  owner : Address
deriving DecidableEq, Repr

/-- The `CoinId`: in the source a `u64` hash wrapper; here an injective encoding. -/
abbrev CoinId := Nat

/-- The `BlockId`: in the source a `u64` hash wrapper; here an injective encoding. -/
abbrev BlockId := Nat

/-- The `TransactionId`: in the source a `u64` hash wrapper. -/
abbrev TransactionId := Nat

/-- The `Input` from bonecoin-core `transaction.rs`. -/
structure Input where
  coin_id : CoinId
  signature : Signature
deriving DecidableEq, Repr

/-- The `Transaction` from bonecoin-core `transaction.rs`. -/
structure Transaction where
  inputs : List Input
  outputs : List Coin
deriving DecidableEq, Repr

/-- Injective encoding of an address (stands for its `Hash` contribution). -/
def encAddress : Address → Nat
  | .Alice => 0
  | .Bob => 1
  | .Charlie => 2
  | .Dave => 3
  | .Eve => 4
  | .Custom n => n + 5

/-- Injective encoding of a signature. -/
def encSignature : Signature → Nat
  | .Invalid => 0
  | .Valid a => encAddress a + 1

/-- Injective encoding of a coin. -/
def encCoin (c : Coin) : Nat := Nat.pair c.value (encAddress c.owner)

/-- Injective encoding of an input. -/
def encInput (i : Input) : Nat := Nat.pair i.coin_id (encSignature i.signature)

/-- Injective encoding of a list of naturals. -/
def encList : List Nat → Nat
  | [] => 0
  | x :: xs => Nat.pair x (encList xs) + 1

/-- The `Transaction::id` (transaction.rs): content hash of inputs and outputs. -/
def Transaction.id (t : Transaction) : TransactionId :=
  Nat.pair (encList (t.inputs.map encInput)) (encList (t.outputs.map encCoin))

/-- The `Transaction::coin_id` (transaction.rs): hash of
`(transaction id, block number, output index)`.  Always positive, so it never
collides with the dummy coin id `0`. -/
def Transaction.coin_id (t : Transaction) (block_number : Nat) (output_index : Nat) : CoinId :=
  Nat.pair t.id (Nat.pair block_number output_index) + 1

/-- The `Input::dummy` (transaction.rs): a fixed placeholder coin id (a constant
assumed to collide with no real coin id) and an invalid signature. -/
def Input.dummy : Input := { coin_id := 0, signature := .Invalid }

/-- The `Block` from bonecoin-core `block.rs`. -/
structure Block where
  parent : BlockId
  number : Nat
  body : List Transaction
deriving DecidableEq, Repr

/-- The `Block::genesis` (block.rs): sentinel parent `BlockId(0)`, height 0, empty body. -/
def Block.genesis : Block := { parent := 0, number := 0, body := [] }

/-- The `Block::id` (block.rs): content hash of the whole block.  Always positive,
so it never collides with the sentinel parent id `0`. -/
def Block.id (b : Block) : BlockId :=
  Nat.pair b.parent (Nat.pair b.number (encList (b.body.map Transaction.id))) + 1

/-- The `WalletError` from bonecoin-core `wallet.rs`. -/
inductive WalletError where
  | ForeignAddress
  | UnknownCoin
  | NoOwnedAddresses
  | InsufficientFunds
  | ZeroCoinValue
  | ZeroInputs
deriving DecidableEq, Repr

/-- Decidable equality of results, used to evaluate concrete scenarios. -/
instance {e a : Type} [DecidableEq e] [DecidableEq a] : DecidableEq (Except e a) := fun x y =>
  match x, y with
  | .error v, .error v2 =>
    if h : v = v2 then isTrue (by rw [h]) else isFalse (fun hc => h (Except.error.inj hc))
  | .error _, .ok _ => isFalse (fun hc => Except.noConfusion hc)
  | .ok _, .error _ => isFalse (fun hc => Except.noConfusion hc)
  | .ok v, .ok v2 =>
    if h : v = v2 then isTrue (by rw [h]) else isFalse (fun hc => h (Except.ok.inj hc))

/-- The `Wallet` struct (lib.rs): tracked addresses, UTXO store, chain cursor. -/
structure Wallet where
  addresses : List Address
  coins : List (CoinId × Coin)
  best_block_height : Nat
  best_block_hash : BlockId
deriving DecidableEq, Repr

/-- The `Wallet::new` (lib.rs). -/
def Wallet.new (addresses : List Address) : Wallet :=
  { addresses := addresses
    coins := []
    best_block_height := 0
    best_block_hash := Block.genesis.id }

/-- The `Wallet::best_height` (lib.rs). -/
def Wallet.best_height (w : Wallet) : Nat := w.best_block_height

/-- The `Wallet::best_hash` (lib.rs). -/
def Wallet.best_hash (w : Wallet) : BlockId := w.best_block_hash

/-- The `Wallet::total_assets_of` (lib.rs). -/
def Wallet.total_assets_of (w : Wallet) (address : Address) : Except WalletError Nat :=
  if address ∈ w.addresses then
    .ok (((w.coins.filter fun p => p.2.owner == address).map fun p => p.2.value).sum)
  else
    .error .ForeignAddress

/-- The `Wallet::net_worth` (lib.rs): sums every stored coin regardless of owner. -/
def Wallet.net_worth (w : Wallet) : Nat := (w.coins.map fun p => p.2.value).sum

/-- The `Wallet::all_coins_of` (lib.rs). -/
def Wallet.all_coins_of (w : Wallet) (address : Address) :
    Except WalletError (List (CoinId × Nat)) :=
  if address ∈ w.addresses then
    .ok ((w.coins.filter fun p => p.2.owner == address).map fun p => (p.1, p.2.value))
  else
    .error .ForeignAddress

/-- The `Wallet::coin_details` (lib.rs). -/
def Wallet.coin_details (w : Wallet) (coin_id : CoinId) : Except WalletError Coin :=
  match w.coins.find? fun p => p.1 == coin_id with
  | some p => .ok p.2
  | none => .error .UnknownCoin

/-- The `Wallet::create_manual_transaction` (lib.rs).  Check order as in the
source: empty inputs, then zero-valued outputs, then unknown input ids. -/
def Wallet.create_manual_transaction (w : Wallet) (input_coin_ids : List CoinId)
    (output_coins : List Coin) : Except WalletError Transaction :=
  if input_coin_ids = [] then
    .error .ZeroInputs
  else if output_coins.any fun c => c.value == 0 then
    .error .ZeroCoinValue
  else if input_coin_ids.any fun cid => !(w.coins.any fun p => p.1 == cid) then
    .error .UnknownCoin
  else
    .ok { inputs := input_coin_ids.map fun cid => { coin_id := cid, signature := .Valid .Alice }
          outputs := output_coins }

/-- The coin-selection loop of `create_automatic_transaction` (lib.rs):
push each coin and stop as soon as the running total reaches the target.
Returns the selected coins and the final running total. -/
def selectLoop (total_needed : Nat) : List (CoinId × Coin) → Nat → List (CoinId × Coin) × Nat
  | [], total => ([], total)
  | p :: rest, total =>
    let total2 := total + p.2.value
    if total_needed ≤ total2 then
      ([p], total2)
    else
      let r := selectLoop total_needed rest total2
      (p :: r.1, r.2)

/-- The `Wallet::create_automatic_transaction` (lib.rs).  The outer `Option` layer
models abnormal termination: `none` is the panic of
`self.addresses.iter().next().unwrap()` on a wallet with no addresses. -/
def Wallet.create_automatic_transaction (w : Wallet) (recipient : Address)
    (payment_amount : Nat) (burn_aka_tip : Nat) : Option (Except WalletError Transaction) :=
  if payment_amount = 0 then
    some (.error .ZeroCoinValue)
  else
    let total_needed := payment_amount + burn_aka_tip
    let sel := selectLoop total_needed w.coins 0
    if sel.2 < total_needed then
      some (.error .InsufficientFunds)
    else
      let inputs := sel.1.map fun p =>
        ({ coin_id := p.1, signature := .Valid p.2.owner } : Input)
      if total_needed < sel.2 then
        match w.addresses with
        | [] => none
        | change_address :: _ =>
          some (.ok { inputs := inputs
                      outputs := [{ value := payment_amount, owner := recipient },
                                  { value := sel.2 - total_needed, owner := change_address }] })
      else
        some (.ok { inputs := inputs
                    outputs := [{ value := payment_amount, owner := recipient }] })

/-- The `NodeEndpoint` trait (node.rs), as a record of its two queries. -/
structure NodeEndpoint where
  best_block_at_height : Nat → Option BlockId
  entire_block : BlockId → Option Block

/-- The per-transaction input pass of `sync` (lib.rs): one `retain` per input,
keeping only the store entries whose id differs from the spent id. -/
def removeInputs (inputs : List Input) (coins : List (CoinId × Coin)) : List (CoinId × Coin) :=
  inputs.foldl (fun cs i => cs.filter fun p => p.1 != i.coin_id) coins

/-- The `HashSet::insert` on the coin store: add the pair unless already present. -/
def insertPair (p : CoinId × Coin) (coins : List (CoinId × Coin)) : List (CoinId × Coin) :=
  if p ∈ coins then coins else p :: coins

/-- The per-transaction output pass of `sync` (lib.rs): walk the outputs with
their indices, insert each coin whose owner is tracked under its derived id. -/
def insertOutputs (addrs : List Address) (t : Transaction) (n : Nat) :
    List Coin → Nat → List (CoinId × Coin) → List (CoinId × Coin)
  | [], _, cs => cs
  | c :: rest, idx, cs =>
    insertOutputs addrs t n rest (idx + 1)
      (if c.owner ∈ addrs then insertPair (t.coin_id n idx, c) cs else cs)

/-- One transaction applied to the coin store during `sync` (lib.rs):
input removals first, then output insertions. -/
def applyTransaction (addrs : List Address) (n : Nat) (t : Transaction)
    (cs : List (CoinId × Coin)) : List (CoinId × Coin) :=
  insertOutputs addrs t n t.outputs 0 (removeInputs t.inputs cs)

/-- A block body applied to the coin store during `sync` (lib.rs):
transactions in listed order. -/
def applyBody (addrs : List Address) (n : Nat) (body : List Transaction)
    (cs : List (CoinId × Coin)) : List (CoinId × Coin) :=
  body.foldl (fun cs t => applyTransaction addrs n t cs) cs

/-- The rollback loop of `sync` (lib.rs), with its query count.  Mirrors the
source: query the canonical id at the current height; stop on a match, on an
absent answer, or at height 0; otherwise step one height down and adopt the
canonical id there (genesis if absent).  At height 0 the loop always exits
after its single query with the state unchanged (every branch of the source
loop body breaks there), so the three height-0 exits collapse into one
equation.  Structural recursion on the height replaces the `while`: the
height strictly decreases. -/
def rollbackA (node : NodeEndpoint) : Nat → BlockId → Nat → (Nat × BlockId) × Nat
  | 0, hash, q => ((0, hash), q + 1)
  | h2 + 1, hash, q =>
    match node.best_block_at_height (h2 + 1) with
    | none => ((h2 + 1, hash), q + 1)
    | some bid =>
      if bid = hash then
        ((h2 + 1, hash), q + 1)
      else
        rollbackA node h2 ((node.best_block_at_height h2).getD Block.genesis.id) (q + 2)

/-- The roll-forward loop of `sync` (lib.rs), with its query count.  Each
round queries the canonical id one above the wallet's height; if present,
fetches the block, applies its body, and adopts the block's number and id.
Fuel replaces the unbounded `while`; against `NodeEndpoint.ofChain c` fuel
`c.length` is provably never exhausted. -/
def forwardA (node : NodeEndpoint) : Nat → Wallet → Nat → Wallet × Nat
  | 0, w, q => (w, q)
  | fuel + 1, w, q =>
    match node.best_block_at_height (w.best_block_height + 1) with
    | none => (w, q + 1)
    | some bid =>
      match node.entire_block bid with
      | none => (w, q + 2)
      | some b =>
        forwardA node fuel
          { w with coins := applyBody w.addresses b.number b.body w.coins
                   best_block_height := b.number
                   best_block_hash := bid }
          (q + 2)

/-- The `Wallet::sync` (lib.rs) with its query count: rollback, then the re-query
consistency check that clears the store and resets the cursor to genesis on a
mismatch, then roll-forward. -/
def syncA (node : NodeEndpoint) (fuel : Nat) (w : Wallet) : Wallet × Nat :=
  let r := rollbackA node w.best_block_height w.best_block_hash 0
  if r.1.2 ≠ (node.best_block_at_height r.1.1).getD Block.genesis.id then
    forwardA node fuel
      { w with coins := [], best_block_height := 0, best_block_hash := Block.genesis.id }
      (r.2 + 1)
  else
    forwardA node fuel
      { w with best_block_height := r.1.1, best_block_hash := r.1.2 }
      (r.2 + 1)

/-- The `Wallet::sync` (lib.rs): the resulting wallet state. -/
def Wallet.sync (node : NodeEndpoint) (fuel : Nat) (w : Wallet) : Wallet :=
  (syncA node fuel w).1

/-- The number of `NodeEndpoint` queries one `sync` call issues (what
`MockNode::how_many_queries` counts in node.rs). -/
def syncQueries (node : NodeEndpoint) (fuel : Nat) (w : Wallet) : Nat :=
  (syncA node fuel w).2

/-- A `MockNode` (node.rs) whose canonical chain is `c`, observed through the
`NodeEndpoint` interface: the canonical id at height `h` is the id of `c`'s
`h`-th block, and a block is fetched by id lookup. -/
def NodeEndpoint.ofChain (c : List Block) : NodeEndpoint :=
  { best_block_at_height := fun h => (c.get? h).map Block.id
    entire_block := fun id => c.find? fun b => b.id == id }

/-- Each successive block has the next number and links to its parent's id
(the invariant `MockNode::add_block` maintains). -/
def extendsOk (prev : Block) : List Block → Bool
  | [] => true
  | b :: rest => decide (b.number = prev.number + 1) && decide (b.parent = prev.id) && extendsOk b rest

/-- A well-formed canonical chain: genesis first, then properly linked blocks. -/
def chainOk : List Block → Bool
  | [] => false
  | g :: rest => decide (g = Block.genesis) && extendsOk g rest

/-- One `sync()` call against a node whose canonical chain is `c`, with enough
fuel (`c.length`) that the forward loop always stops by itself. -/
def syncChain (c : List Block) (w : Wallet) : Wallet :=
  Wallet.sync (NodeEndpoint.ofChain c) c.length w

/-- A fresh wallet tracking `addrs` that replays chain `c` from genesis. -/
def replayFromGenesis (c : List Block) (addrs : List Address) : Wallet :=
  syncChain c (Wallet.new addrs)

/-- A sequence of `sync()` calls, each against its own node with its own fuel. -/
def syncMany (l : List (NodeEndpoint × Nat)) (w : Wallet) : Wallet :=
  l.foldl (fun w p => Wallet.sync p.1 p.2 w) w

/-- The state transition the forward loop performs per fetched block. -/
def applyBlockW (w : Wallet) (b : Block) : Wallet :=
  { w with coins := applyBody w.addresses b.number b.body w.coins
           best_block_height := b.number
           best_block_hash := b.id }


/-! ## Unfolding equations for the loops of sync -/

theorem rollbackA_zero {node : NodeEndpoint} {hash : BlockId} {q : Nat} :
    rollbackA node 0 hash q = ((0, hash), q + 1) := by
  rw [rollbackA]

theorem rollbackA_none {node : NodeEndpoint} {h : Nat} {hash : BlockId} {q : Nat}
    (h1 : node.best_block_at_height h = none) :
    rollbackA node h hash q = ((h, hash), q + 1) := by
  cases h with
  | zero => exact rollbackA_zero
  | succ h2 => rw [rollbackA, h1]

theorem rollbackA_match {node : NodeEndpoint} {h : Nat} {hash : BlockId} {q : Nat}
    (h1 : node.best_block_at_height h = some hash) :
    rollbackA node h hash q = ((h, hash), q + 1) := by
  cases h with
  | zero => exact rollbackA_zero
  | succ h2 =>
    rw [rollbackA, h1]
    simp

theorem rollbackA_step {node : NodeEndpoint} {h2 : Nat} {hash : BlockId} {q : Nat}
    {bid : BlockId} (h1 : node.best_block_at_height (h2 + 1) = some bid) (hne : bid ≠ hash) :
    rollbackA node (h2 + 1) hash q =
      rollbackA node h2 ((node.best_block_at_height h2).getD Block.genesis.id) (q + 2) := by
  rw [rollbackA, h1]
  simp [hne]

theorem forwardA_none {node : NodeEndpoint} {fuel : Nat} {w : Wallet} {q : Nat}
    (h1 : node.best_block_at_height (w.best_block_height + 1) = none) :
    forwardA node (fuel + 1) w q = (w, q + 1) := by
  rw [forwardA, h1]

theorem forwardA_nofetch {node : NodeEndpoint} {fuel : Nat} {w : Wallet} {q : Nat}
    {bid : BlockId} (h1 : node.best_block_at_height (w.best_block_height + 1) = some bid)
    (h2 : node.entire_block bid = none) :
    forwardA node (fuel + 1) w q = (w, q + 2) := by
  rw [forwardA, h1]
  simp only [h2]

theorem forwardA_step {node : NodeEndpoint} {fuel : Nat} {w : Wallet} {q : Nat}
    {bid : BlockId} {b : Block}
    (h1 : node.best_block_at_height (w.best_block_height + 1) = some bid)
    (h2 : node.entire_block bid = some b) :
    forwardA node (fuel + 1) w q =
      forwardA node fuel
        { w with coins := applyBody w.addresses b.number b.body w.coins
                 best_block_height := b.number
                 best_block_hash := bid }
        (q + 2) := by
  rw [forwardA, h1]
  simp only [h2]

/-! ## Chain well-formedness -/

theorem extendsOk_number (rest : List Block) : ∀ (prev : Block), extendsOk prev rest = true →
    ∀ i b, rest.get? i = some b → b.number = prev.number + 1 + i := by
  induction rest with
  | nil =>
    intro prev _ i b h
    simp [List.get?] at h
  | cons x xs ih =>
    intro prev hok i b h
    simp only [extendsOk, Bool.and_eq_true, decide_eq_true_eq] at hok
    obtain ⟨⟨hn, _⟩, hrest⟩ := hok
    cases i with
    | zero =>
      simp only [List.get?_cons_zero, Option.some.injEq] at h
      subst h
      omega
    | succ i =>
      simp only [List.get?_cons_succ] at h
      have := ih x hrest i b h
      omega

theorem chainOk_cases {c : List Block} (hok : chainOk c = true) :
    ∃ rest, c = Block.genesis :: rest ∧ extendsOk Block.genesis rest = true := by
  match c with
  | [] => simp [chainOk] at hok
  | g :: rest =>
    simp only [chainOk, Bool.and_eq_true, decide_eq_true_eq] at hok
    exact ⟨rest, by rw [hok.1], by rw [← hok.1]; exact hok.2⟩

theorem chainOk_number {c : List Block} (hok : chainOk c = true) :
    ∀ i b, c.get? i = some b → b.number = i := by
  obtain ⟨rest, rfl, hrest⟩ := chainOk_cases hok
  intro i b h
  cases i with
  | zero =>
    simp only [List.get?_cons_zero, Option.some.injEq] at h
    rw [← h]
    rfl
  | succ i =>
    simp only [List.get?_cons_succ] at h
    have := extendsOk_number rest Block.genesis hrest i b h
    simp only [Block.genesis] at this
    omega

theorem chainOk_get_zero {c : List Block} (hok : chainOk c = true) :
    c.get? 0 = some Block.genesis := by
  obtain ⟨rest, rfl, _⟩ := chainOk_cases hok
  rfl

theorem chainOk_length_pos {c : List Block} (hok : chainOk c = true) : 0 < c.length := by
  obtain ⟨rest, rfl, _⟩ := chainOk_cases hok
  simp

theorem Block.id_number_eq {b b' : Block} (h : b.id = b'.id) : b.number = b'.number := by
  unfold Block.id at h
  have h2 := Nat.succ_injective h
  have h3 := (Nat.pair_eq_pair.mp h2).2
  exact (Nat.pair_eq_pair.mp h3).1

theorem chainOk_get_inj {c : List Block} (hok : chainOk c = true) {i j : Nat} {b b' : Block}
    (hi : c.get? i = some b) (hj : c.get? j = some b') (hid : b.id = b'.id) : b = b' := by
  have hbi := chainOk_number hok i b hi
  have hbj := chainOk_number hok j b' hj
  have : i = j := by
    have := Block.id_number_eq hid
    omega
  subst this
  rw [hi] at hj
  exact Option.some.inj hj

theorem ofChain_best {c : List Block} {h : Nat} {b : Block} (hget : c.get? h = some b) :
    (NodeEndpoint.ofChain c).best_block_at_height h = some b.id := by
  show (c.get? h).map Block.id = some b.id
  rw [hget]
  rfl

theorem ofChain_best_none {c : List Block} {h : Nat} (hlen : c.length ≤ h) :
    (NodeEndpoint.ofChain c).best_block_at_height h = none := by
  show (c.get? h).map Block.id = none
  rw [List.get?_eq_none.mpr hlen]
  rfl

theorem ofChain_entire_block {c : List Block} (hok : chainOk c = true) {i : Nat} {b : Block}
    (h : c.get? i = some b) : (NodeEndpoint.ofChain c).entire_block b.id = some b := by
  show c.find? (fun x => x.id == b.id) = some b
  cases hfind : c.find? (fun x => x.id == b.id) with
  | none =>
    exfalso
    have := List.find?_eq_none.mp hfind b (List.get?_mem h)
    simp at this
  | some x =>
    have hpx : x.id = b.id := by
      have := List.find?_some hfind
      simpa using this
    have hx : x ∈ c := List.mem_of_find?_eq_some hfind
    obtain ⟨j, hj⟩ := List.mem_iff_get?.mp hx
    rw [chainOk_get_inj hok hj h hpx]

/-! ## The roll-forward loop against a well-formed chain -/

theorem get?_some_of_lt {α : Type} {l : List α} {i : Nat} (h : i < l.length) :
    ∃ a, l.get? i = some a := by
  cases hg : l.get? i with
  | none => exact absurd (List.get?_eq_none.mp hg) (by omega)
  | some a => exact ⟨a, rfl⟩

theorem drop_cons_of_get? {c : List Block} {h : Nat} {b2 : Block}
    (hget2 : c.get? (h + 1) = some b2) :
    c.drop (h + 1) = b2 :: c.drop (h + 2) := by
  obtain ⟨hlt, he⟩ := List.get?_eq_some.mp hget2
  rw [List.drop_eq_getElem_cons hlt]
  congr 1

theorem forwardA_chain {c : List Block} (hok : chainOk c = true) :
    ∀ (fuel h : Nat) (b : Block) (w : Wallet) (q : Nat),
      c.get? h = some b → w.best_block_height = h → w.best_block_hash = b.id →
      c.length ≤ h + fuel →
      forwardA (NodeEndpoint.ofChain c) fuel w q =
        ((c.drop (h + 1)).foldl applyBlockW w, q + 2 * (c.length - (h + 1)) + 1) := by
  intro fuel
  induction fuel with
  | zero =>
    intro h b w q hget _ _ hfuel
    exfalso
    obtain ⟨hlt, _⟩ := List.get?_eq_some.mp hget
    omega
  | succ fuel ih =>
    intro h b w q hget hh hhash hfuel
    by_cases hlt : h + 1 < c.length
    · obtain ⟨b2, hget2⟩ := get?_some_of_lt hlt
      have hb2n : b2.number = h + 1 := chainOk_number hok _ _ hget2
      have hbba : (NodeEndpoint.ofChain c).best_block_at_height (w.best_block_height + 1) =
          some b2.id := by
        rw [hh]
        exact ofChain_best hget2
      rw [forwardA_step hbba (ofChain_entire_block hok hget2)]
      rw [ih (h + 1) b2 _ (q + 2) hget2 (by simp [hb2n]) (by simp) (by omega)]
      rw [drop_cons_of_get? hget2, List.foldl_cons]
      have happ : applyBlockW w b2 =
          { w with coins := applyBody w.addresses b2.number b2.body w.coins
                   best_block_height := b2.number
                   best_block_hash := b2.id } := rfl
      rw [← happ]
      congr 1
      omega
    · have hbba : (NodeEndpoint.ofChain c).best_block_at_height (w.best_block_height + 1) =
          none := by
        rw [hh]
        exact ofChain_best_none (by omega)
      rw [forwardA_none hbba]
      rw [List.drop_eq_nil_of_le (by omega : c.length ≤ h + 1)]
      simp only [List.foldl_nil]
      congr 1
      omega

theorem foldl_applyBlockW_tip {c : List Block} (hok : chainOk c = true) :
    ∀ (n h : Nat) (b : Block) (w : Wallet), c.length - (h + 1) = n →
      c.get? h = some b → w.best_block_height = h → w.best_block_hash = b.id →
      ∃ b2, c.get? (c.length - 1) = some b2 ∧
        ((c.drop (h + 1)).foldl applyBlockW w).best_block_height = c.length - 1 ∧
        ((c.drop (h + 1)).foldl applyBlockW w).best_block_hash = b2.id := by
  intro n
  induction n with
  | zero =>
    intro h b w hn hget hh hhash
    obtain ⟨hlt, _⟩ := List.get?_eq_some.mp hget
    have hh1 : h = c.length - 1 := by omega
    rw [List.drop_eq_nil_of_le (by omega : c.length ≤ h + 1)]
    simp only [List.foldl_nil]
    exact ⟨b, by rw [← hh1]; exact hget, by omega, hhash⟩
  | succ n ih =>
    intro h b w hn hget hh hhash
    have hlt : h + 1 < c.length := by omega
    obtain ⟨b2, hget2⟩ := get?_some_of_lt hlt
    have hb2n : b2.number = h + 1 := chainOk_number hok _ _ hget2
    rw [drop_cons_of_get? hget2, List.foldl_cons]
    have := ih (h + 1) b2 (applyBlockW w b2) (by omega) hget2 (by simp [applyBlockW, hb2n])
      (by simp [applyBlockW])
    rwa [show h + 1 + 1 = h + 2 by rfl] at this

/-! ## Characterization of one sync call against a well-formed chain -/

theorem wallet_eta (w : Wallet) :
    ({ w with best_block_height := w.best_block_height,
              best_block_hash := w.best_block_hash } : Wallet) = w := rfl

theorem syncA_on_chain {c : List Block} (hok : chainOk c = true) {w : Wallet} {b : Block}
    (hget : c.get? w.best_block_height = some b) (hhash : w.best_block_hash = b.id)
    (fuel : Nat) (hfuel : c.length ≤ w.best_block_height + fuel) :
    syncA (NodeEndpoint.ofChain c) fuel w =
      ((c.drop (w.best_block_height + 1)).foldl applyBlockW w,
        2 * (c.length - (w.best_block_height + 1)) + 3) := by
  have hbba := ofChain_best hget
  have hroll : rollbackA (NodeEndpoint.ofChain c) w.best_block_height w.best_block_hash 0 =
      ((w.best_block_height, w.best_block_hash), 1) :=
    rollbackA_match (by rw [hbba, hhash])
  simp only [syncA, hroll]
  rw [hbba]
  simp only [Option.getD_some]
  rw [if_neg (by simp [hhash])]
  rw [wallet_eta]
  rw [forwardA_chain hok fuel w.best_block_height b w 2 hget rfl hhash hfuel]
  congr 1
  omega

/-- The states one `sync()` against chain `c` can end in: on-chain at the tip,
or (for a wallet whose stale height exceeds the chain and whose hash is
already the genesis id) unchanged above the chain. -/
def SyncedState (c : List Block) (w : Wallet) : Prop :=
  (∃ b, c.get? w.best_block_height = some b ∧ w.best_block_hash = b.id ∧
    w.best_block_height + 1 = c.length) ∨
  (c.length ≤ w.best_block_height ∧ w.best_block_hash = Block.genesis.id)

theorem forwardA_synced {c : List Block} (hok : chainOk c = true) {w : Wallet} {b : Block}
    (hget : c.get? w.best_block_height = some b) (hhash : w.best_block_hash = b.id)
    (fuel q : Nat) (hfuel : c.length ≤ w.best_block_height + fuel) :
    SyncedState c (forwardA (NodeEndpoint.ofChain c) fuel w q).1 := by
  rw [forwardA_chain hok fuel w.best_block_height b w q hget rfl hhash hfuel]
  obtain ⟨b2, hb2, hh, hhs⟩ := foldl_applyBlockW_tip hok (c.length - (w.best_block_height + 1))
    w.best_block_height b w rfl hget rfl hhash
  left
  refine ⟨b2, ?_, hhs, ?_⟩
  · rw [hh]
    exact hb2
  · rw [hh]
    have := chainOk_length_pos hok
    omega

theorem syncA_synced {c : List Block} (hok : chainOk c = true) (fuel : Nat)
    (hfuel : c.length ≤ fuel) (w : Wallet) :
    SyncedState c (syncA (NodeEndpoint.ofChain c) fuel w).1 := by
  have hlenpos := chainOk_length_pos hok
  obtain ⟨f, hf⟩ : ∃ f, fuel = f + 1 := ⟨fuel - 1, by omega⟩
  by_cases hbig : c.length ≤ w.best_block_height
  · have hbba := ofChain_best_none hbig
    have hroll : rollbackA (NodeEndpoint.ofChain c) w.best_block_height w.best_block_hash 0 =
        ((w.best_block_height, w.best_block_hash), 1) := rollbackA_none hbba
    simp only [syncA, hroll]
    rw [hbba]
    simp only [Option.getD_none]
    by_cases hg : w.best_block_hash = Block.genesis.id
    · rw [if_neg (by simp [hg])]
      rw [wallet_eta]
      have hn : (NodeEndpoint.ofChain c).best_block_at_height (w.best_block_height + 1) = none :=
        ofChain_best_none (by omega)
      rw [hf, forwardA_none hn]
      exact Or.inr ⟨hbig, hg⟩
    · rw [if_pos hg]
      exact forwardA_synced hok (chainOk_get_zero hok) rfl fuel 2 (by omega)
  · obtain ⟨b, hget⟩ := get?_some_of_lt (by omega : w.best_block_height < c.length)
    have hbba := ofChain_best hget
    by_cases hid : b.id = w.best_block_hash
    · have hroll := rollbackA_match (q := 0) (by rw [hbba, hid])
      simp only [syncA, hroll]
      rw [hbba]
      simp only [Option.getD_some]
      rw [if_neg (by simp [hid])]
      rw [wallet_eta]
      exact forwardA_synced hok hget hid.symm fuel 2 (by omega)
    · cases hh : w.best_block_height with
      | zero =>
        have hroll : rollbackA (NodeEndpoint.ofChain c) 0 w.best_block_hash 0 =
            ((0, w.best_block_hash), 1) := rollbackA_zero
        have hb : b = Block.genesis := by
          rw [hh] at hget
          rw [chainOk_get_zero hok] at hget
          exact (Option.some.inj hget).symm
        have hbba0 : (NodeEndpoint.ofChain c).best_block_at_height 0 = some Block.genesis.id := by
          rw [← hb, ← hh]
          exact hbba
        simp only [syncA, hh, hroll]
        rw [hbba0]
        simp only [Option.getD_some]
        rw [if_pos (by rw [← hb]; exact fun he => hid (he.symm))]
        exact forwardA_synced hok (chainOk_get_zero hok) rfl fuel 2 (by simp; omega)
      | succ h2 =>
        have hget2 : ∃ b2, c.get? h2 = some b2 := get?_some_of_lt (by omega)
        obtain ⟨b2, hget2⟩ := hget2
        have hbba2 := ofChain_best hget2
        have hroll : rollbackA (NodeEndpoint.ofChain c) w.best_block_height w.best_block_hash 0 =
            ((h2, b2.id), 3) := by
          rw [hh]
          rw [rollbackA_step (by rw [← hh]; exact hbba) hid]
          rw [hbba2]
          simp only [Option.getD_some]
          exact rollbackA_match hbba2
        simp only [syncA, hroll]
        rw [hbba2]
        simp only [Option.getD_some]
        rw [if_neg (by simp)]
        exact forwardA_synced hok (by simpa using hget2) rfl fuel 4 (by simp; omega)

theorem syncA_fixpoint {c : List Block} (hok : chainOk c = true) (fuel : Nat)
    (hfuel : 1 ≤ fuel) {w : Wallet} (hs : SyncedState c w) :
    (syncA (NodeEndpoint.ofChain c) fuel w).1 = w := by
  obtain ⟨f, hf⟩ : ∃ f, fuel = f + 1 := ⟨fuel - 1, by omega⟩
  cases hs with
  | inl h =>
    obtain ⟨b, hget, hhash, hlen⟩ := h
    have hbba := ofChain_best hget
    have hroll : rollbackA (NodeEndpoint.ofChain c) w.best_block_height w.best_block_hash 0 =
        ((w.best_block_height, w.best_block_hash), 1) :=
      rollbackA_match (by rw [hbba, hhash])
    simp only [syncA, hroll]
    rw [hbba]
    simp only [Option.getD_some]
    rw [if_neg (by simp [hhash])]
    rw [wallet_eta]
    have hn : (NodeEndpoint.ofChain c).best_block_at_height (w.best_block_height + 1) = none :=
      ofChain_best_none (by omega)
    rw [hf, forwardA_none hn]
  | inr h =>
    obtain ⟨hbig, hg⟩ := h
    have hbba := ofChain_best_none hbig
    have hroll : rollbackA (NodeEndpoint.ofChain c) w.best_block_height w.best_block_hash 0 =
        ((w.best_block_height, w.best_block_hash), 1) := rollbackA_none hbba
    simp only [syncA, hroll]
    rw [hbba]
    simp only [Option.getD_none]
    rw [if_neg (by simp [hg])]
    rw [wallet_eta]
    have hn : (NodeEndpoint.ofChain c).best_block_at_height (w.best_block_height + 1) = none :=
      ofChain_best_none (by omega)
    rw [hf, forwardA_none hn]

/-! ## Ownership invariant: only tracked owners ever enter the store -/

theorem removeInputs_cons (i : Input) (rest : List Input) (cs : List (CoinId × Coin)) :
    removeInputs (i :: rest) cs = removeInputs rest (cs.filter fun p => p.1 != i.coin_id) := rfl

theorem removeInputs_subset {inputs : List Input} :
    ∀ {cs : List (CoinId × Coin)} {p : CoinId × Coin}, p ∈ removeInputs inputs cs → p ∈ cs := by
  induction inputs with
  | nil => intro cs p h; exact h
  | cons i rest ih =>
    intro cs p h
    rw [removeInputs_cons] at h
    exact List.mem_of_mem_filter (ih h)

theorem mem_insertPair {q p : CoinId × Coin} {cs : List (CoinId × Coin)}
    (h : q ∈ insertPair p cs) : q = p ∨ q ∈ cs := by
  unfold insertPair at h
  split at h
  · exact Or.inr h
  · exact List.mem_cons.mp h

theorem insertPair_self (p : CoinId × Coin) (cs : List (CoinId × Coin)) :
    p ∈ insertPair p cs := by
  unfold insertPair
  split
  · assumption
  · exact List.mem_cons_self p cs

theorem insertPair_mono {q : CoinId × Coin} (p : CoinId × Coin) {cs : List (CoinId × Coin)}
    (h : q ∈ cs) : q ∈ insertPair p cs := by
  unfold insertPair
  split
  · exact h
  · exact List.mem_cons_of_mem p h

theorem insertOutputs_owner {addrs : List Address} {t : Transaction} {n : Nat} :
    ∀ (outs : List Coin) (idx : Nat) (cs : List (CoinId × Coin)),
      (∀ p ∈ cs, p.2.owner ∈ addrs) →
      ∀ q ∈ insertOutputs addrs t n outs idx cs, q.2.owner ∈ addrs := by
  intro outs
  induction outs with
  | nil => intro idx cs hcs q hq; exact hcs q hq
  | cons c rest ih =>
    intro idx cs hcs q hq
    rw [insertOutputs] at hq
    refine ih (idx + 1) _ ?_ q hq
    intro p hp
    by_cases hc : c.owner ∈ addrs
    · rw [if_pos hc] at hp
      rcases mem_insertPair hp with rfl | hp2
      · exact hc
      · exact hcs p hp2
    · rw [if_neg hc] at hp
      exact hcs p hp

theorem applyTransaction_owner {addrs : List Address} {n : Nat} {t : Transaction}
    {cs : List (CoinId × Coin)} (hcs : ∀ p ∈ cs, p.2.owner ∈ addrs) :
    ∀ q ∈ applyTransaction addrs n t cs, q.2.owner ∈ addrs := by
  refine insertOutputs_owner t.outputs 0 _ ?_
  intro p hp
  exact hcs p (removeInputs_subset hp)

theorem applyBody_owner {addrs : List Address} {n : Nat} :
    ∀ (body : List Transaction) (cs : List (CoinId × Coin)),
      (∀ p ∈ cs, p.2.owner ∈ addrs) →
      ∀ q ∈ applyBody addrs n body cs, q.2.owner ∈ addrs := by
  intro body
  induction body with
  | nil => intro cs hcs q hq; exact hcs q hq
  | cons t rest ih =>
    intro cs hcs q hq
    exact ih _ (applyTransaction_owner hcs) q hq

/-- The ownership invariant of the wallet store. -/
def OwnedInv (w : Wallet) : Prop := ∀ p ∈ w.coins, p.2.owner ∈ w.addresses

theorem forwardA_addresses (node : NodeEndpoint) :
    ∀ (fuel : Nat) (w : Wallet) (q : Nat),
      ((forwardA node fuel w q).1).addresses = w.addresses := by
  intro fuel
  induction fuel with
  | zero => intro w q; rfl
  | succ fuel ih =>
    intro w q
    cases hb : node.best_block_at_height (w.best_block_height + 1) with
    | none => rw [forwardA_none hb]
    | some bid =>
      cases he : node.entire_block bid with
      | none => rw [forwardA_nofetch hb he]
      | some b =>
        rw [forwardA_step hb he]
        exact ih _ _

theorem forwardA_owner (node : NodeEndpoint) :
    ∀ (fuel : Nat) (w : Wallet) (q : Nat),
      OwnedInv w → OwnedInv (forwardA node fuel w q).1 := by
  intro fuel
  induction fuel with
  | zero => intro w q h; exact h
  | succ fuel ih =>
    intro w q h
    cases hb : node.best_block_at_height (w.best_block_height + 1) with
    | none => rw [forwardA_none hb]; exact h
    | some bid =>
      cases he : node.entire_block bid with
      | none => rw [forwardA_nofetch hb he]; exact h
      | some b =>
        rw [forwardA_step hb he]
        refine ih _ _ ?_
        intro p hp
        exact applyBody_owner b.body w.coins h p hp

theorem sync_addresses (node : NodeEndpoint) (fuel : Nat) (w : Wallet) :
    (Wallet.sync node fuel w).addresses = w.addresses := by
  simp only [Wallet.sync, syncA]
  split
  · exact forwardA_addresses node fuel _ _
  · exact forwardA_addresses node fuel _ _

theorem sync_owner (node : NodeEndpoint) (fuel : Nat) (w : Wallet) (h : OwnedInv w) :
    OwnedInv (Wallet.sync node fuel w) := by
  simp only [Wallet.sync, syncA]
  split
  · refine forwardA_owner node fuel _ _ ?_
    intro p hp
    exact absurd hp (List.not_mem_nil p)
  · exact forwardA_owner node fuel _ _ h

theorem syncMany_addresses : ∀ (l : List (NodeEndpoint × Nat)) (w : Wallet),
    (syncMany l w).addresses = w.addresses := by
  intro l
  induction l with
  | nil => intro w; rfl
  | cons p rest ih =>
    intro w
    show (syncMany rest (Wallet.sync p.1 p.2 w)).addresses = w.addresses
    rw [ih, sync_addresses]

theorem syncMany_owner : ∀ (l : List (NodeEndpoint × Nat)) (w : Wallet),
    OwnedInv w → OwnedInv (syncMany l w) := by
  intro l
  induction l with
  | nil => intro w h; exact h
  | cons p rest ih =>
    intro w h
    exact ih _ (sync_owner p.1 p.2 w h)

/-! ## Same-block dependencies: spent ids stay out, created outputs get in -/

theorem lt_encList_of_mem : ∀ {l : List Nat} {x : Nat}, x ∈ l → x < encList l := by
  intro l
  induction l with
  | nil => intro x h; cases h
  | cons y ys ih =>
    intro x h
    rw [encList]
    rcases List.mem_cons.mp h with rfl | h2
    · have := Nat.left_le_pair x (encList ys)
      omega
    · have h3 := ih h2
      have := Nat.right_le_pair y (encList ys)
      omega

theorem spent_coin_id_lt {t : Transaction} {inp : Input} (h : inp ∈ t.inputs) :
    inp.coin_id < t.id := by
  have h1 : inp.coin_id ≤ encInput inp := Nat.left_le_pair _ _
  have h2 : encInput inp < encList (t.inputs.map encInput) :=
    lt_encList_of_mem (List.mem_map_of_mem encInput h)
  have h3 : encList (t.inputs.map encInput) ≤ t.id := Nat.left_le_pair _ _
  exact Nat.lt_of_le_of_lt h1 (Nat.lt_of_lt_of_le h2 h3)

/-- A transaction that spends the coin `ta` created at `(nb, j)` can never
itself create a coin with that id: its own id is strictly larger than `ta`'s,
because the spent id embeds `ta`'s id.  (In the source this is the assumed
collision-freedom of the hash.) -/
theorem spend_coin_id_ne {tb ta : Transaction} {nb j : Nat}
    (h : ∃ inp ∈ tb.inputs, inp.coin_id = Transaction.coin_id ta nb j) :
    ∀ n i, Transaction.coin_id tb n i ≠ Transaction.coin_id ta nb j := by
  intro n i heq
  unfold Transaction.coin_id at heq
  have h2 := Nat.succ_injective heq
  have h3 : tb.id = ta.id := (Nat.pair_eq_pair.mp h2).1
  obtain ⟨inp, hin, hcid⟩ := h
  have h4 := spent_coin_id_lt hin
  have h5 : ta.id < inp.coin_id := by
    rw [hcid]
    exact Nat.lt_succ_of_le (Nat.left_le_pair ta.id (Nat.pair nb j))
  rw [h3] at h4
  exact Nat.lt_irrefl ta.id (Nat.lt_trans h5 h4)

theorem removeInputs_spent {x : CoinId} :
    ∀ (inputs : List Input) (cs : List (CoinId × Coin)) (cn : Coin),
      (∃ inp ∈ inputs, inp.coin_id = x) → (x, cn) ∉ removeInputs inputs cs := by
  intro inputs
  induction inputs with
  | nil =>
    intro cs cn h
    obtain ⟨inp, hin, _⟩ := h
    cases hin
  | cons i rest ih =>
    intro cs cn h hmem
    rw [removeInputs_cons] at hmem
    by_cases hx : i.coin_id = x
    · have h2 : (x, cn) ∈ cs.filter fun p => p.1 != i.coin_id := removeInputs_subset hmem
      have h3 := (List.mem_filter.mp h2).2
      simp [hx] at h3
    · obtain ⟨inp, hin, hcid⟩ := h
      rcases List.mem_cons.mp hin with rfl | hin2
      · exact hx hcid
      · exact ih _ cn ⟨inp, hin2, hcid⟩ hmem

theorem insertOutputs_mono {addrs : List Address} {t : Transaction} {n : Nat} :
    ∀ (outs : List Coin) (idx : Nat) (cs : List (CoinId × Coin)) (q : CoinId × Coin),
      q ∈ cs → q ∈ insertOutputs addrs t n outs idx cs := by
  intro outs
  induction outs with
  | nil => intro idx cs q h; exact h
  | cons c rest ih =>
    intro idx cs q h
    rw [insertOutputs]
    refine ih (idx + 1) _ q ?_
    by_cases hc : c.owner ∈ addrs
    · rw [if_pos hc]
      exact insertPair_mono _ h
    · rw [if_neg hc]
      exact h

theorem insertOutputs_not_mem {addrs : List Address} {t : Transaction} {n : Nat}
    {x : CoinId} {cn : Coin} (hne : ∀ i, Transaction.coin_id t n i ≠ x) :
    ∀ (outs : List Coin) (idx : Nat) (cs : List (CoinId × Coin)),
      (x, cn) ∉ cs → (x, cn) ∉ insertOutputs addrs t n outs idx cs := by
  intro outs
  induction outs with
  | nil => intro idx cs h; exact h
  | cons c rest ih =>
    intro idx cs h
    rw [insertOutputs]
    refine ih (idx + 1) _ ?_
    by_cases hc : c.owner ∈ addrs
    · rw [if_pos hc]
      intro hmem
      rcases mem_insertPair hmem with heq | h2
      · exact hne idx (congrArg Prod.fst heq).symm
      · exact h h2
    · rw [if_neg hc]
      exact h

theorem insertOutputs_mem_output {addrs : List Address} {t : Transaction} {n : Nat} :
    ∀ (outs : List Coin) (idx : Nat) (cs : List (CoinId × Coin)) (i : Nat) (cn : Coin),
      outs.get? i = some cn → cn.owner ∈ addrs →
      (Transaction.coin_id t n (idx + i), cn) ∈ insertOutputs addrs t n outs idx cs := by
  intro outs
  induction outs with
  | nil =>
    intro idx cs i cn h
    simp [List.get?] at h
  | cons c rest ih =>
    intro idx cs i cn h ho
    rw [insertOutputs]
    cases i with
    | zero =>
      simp only [List.get?_cons_zero, Option.some.injEq] at h
      subst h
      rw [if_pos ho]
      exact insertOutputs_mono rest (idx + 1) _ _ (insertPair_self _ _)
    | succ i =>
      simp only [List.get?_cons_succ] at h
      have := ih (idx + 1) (if c.owner ∈ addrs then insertPair (t.coin_id n idx, c) cs else cs)
        i cn h ho
      rwa [show idx + 1 + i = idx + (i + 1) by omega] at this

theorem applyTransaction_spends_not_mem {addrs : List Address} {n : Nat} {tb ta : Transaction}
    {nb j : Nat} {cs : List (CoinId × Coin)}
    (hspend : ∃ inp ∈ tb.inputs, inp.coin_id = Transaction.coin_id ta nb j) (cn : Coin) :
    (Transaction.coin_id ta nb j, cn) ∉ applyTransaction addrs n tb cs :=
  insertOutputs_not_mem (fun i => spend_coin_id_ne hspend n i) tb.outputs 0 _
    (removeInputs_spent tb.inputs cs cn hspend)

theorem applyTransaction_output_mem {addrs : List Address} {n : Nat} {t : Transaction}
    {cs : List (CoinId × Coin)} {i : Nat} {cn : Coin}
    (h : t.outputs.get? i = some cn) (ho : cn.owner ∈ addrs) :
    (Transaction.coin_id t n i, cn) ∈ applyTransaction addrs n t cs := by
  have := insertOutputs_mem_output (t := t) (n := n) t.outputs 0
    (removeInputs t.inputs cs) i cn h ho
  simpa using this

theorem applyBody_append_single (addrs : List Address) (n : Nat) (l : List Transaction)
    (tb : Transaction) (cs : List (CoinId × Coin)) :
    applyBody addrs n (l ++ [tb]) cs = applyTransaction addrs n tb (applyBody addrs n l cs) := by
  unfold applyBody
  rw [List.foldl_append]
  rfl

theorem foldl_applyBlockW_addresses : ∀ (bs : List Block) (w : Wallet),
    (bs.foldl applyBlockW w).addresses = w.addresses := by
  intro bs
  induction bs with
  | nil => intro w; rfl
  | cons b rest ih =>
    intro w
    rw [List.foldl_cons, ih]
    rfl

theorem syncChain_fresh {c : List Block} (hok : chainOk c = true) (addrs : List Address) :
    syncChain c (Wallet.new addrs) = (c.drop 1).foldl applyBlockW (Wallet.new addrs) := by
  unfold syncChain Wallet.sync
  rw [syncA_on_chain hok (w := Wallet.new addrs) (b := Block.genesis) (chainOk_get_zero hok) rfl
    c.length (by simp [Wallet.new])]
  rfl

theorem drop_one_decomp {c : List Block} {bl : Block} (hlen : 2 ≤ c.length)
    (hlast : c.get? (c.length - 1) = some bl) :
    ∃ mid, c.drop 1 = mid ++ [bl] := by
  have h1 : c.drop (c.length - 1) = [bl] := by
    obtain ⟨hlt, he⟩ := List.get?_eq_some.mp hlast
    rw [List.drop_eq_getElem_cons hlt]
    rw [List.drop_eq_nil_of_le (by omega)]
    congr 1
  refine ⟨(c.drop 1).take (c.length - 2), ?_⟩
  conv_lhs => rw [← List.take_append_drop (c.length - 2) (c.drop 1)]
  rw [List.drop_drop]
  rw [show 1 + (c.length - 2) = c.length - 1 by omega]
  rw [h1]

/-! ## Concrete scenarios -/

/-- A transaction minting 100 bones to Alice (dummy input, as in the repo tests). -/
def mintA : Transaction :=
  { inputs := [Input.dummy], outputs := [{ value := 100, owner := .Alice }] }

/-- A transaction minting 50 bones to Alice. -/
def mintB : Transaction :=
  { inputs := [Input.dummy], outputs := [{ value := 50, owner := .Alice }] }

def blkA1 : Block := { parent := Block.genesis.id, number := 1, body := [mintA] }

def blkA2 : Block := { parent := blkA1.id, number := 2, body := [] }

def blkB1 : Block := { parent := Block.genesis.id, number := 1, body := [mintB] }

def blkB2 : Block := { parent := blkB1.id, number := 2, body := [] }

/-- Chain A: genesis, then a block minting 100 to Alice, then an empty block. -/
def chainA : List Block := [Block.genesis, blkA1, blkA2]

/-- Chain B: genesis, then a block minting 50 to Alice, then an empty block.
Shares only genesis with chain A (common ancestor height 0 < 2). -/
def chainB : List Block := [Block.genesis, blkB1, blkB2]

/-- C1: the claim fails on the code.  After syncing chain A (net worth 100)
and then reorging to chain B, whose only common ancestor with A is genesis,
one `sync()` leaves the wallet's net worth at 100 — the stale coin minted by
the abandoned chain A — while a fresh wallet replaying chain B from genesis
has net worth 50.  The rollback loop steps back exactly one height and adopts
the new canonical hash there without undoing any coins, so the store keeps
chain A's UTXOs.  (The source itself warns: "Reorganization handling code is
not fully working in complex cases".) -/
theorem claim_C1 :
    chainOk chainA = true ∧ chainOk chainB = true ∧
    (syncChain chainB (syncChain chainA (Wallet.new [Address.Alice]))).net_worth = 100 ∧
    (replayFromGenesis chainB [Address.Alice]).net_worth = 50 ∧
    (syncChain chainB (syncChain chainA (Wallet.new [Address.Alice]))).total_assets_of
        Address.Alice = .ok 100 ∧
    (replayFromGenesis chainB [Address.Alice]).total_assets_of Address.Alice = .ok 50 := by
  refine ⟨by decide, by decide, by decide, by decide, by decide, by decide⟩

/-- C2: sync is idempotent.  Against any well-formed canonical chain, a second
`sync()` with no ledger change leaves height, hash and all balances (indeed
the whole wallet state) exactly as after the first. -/
theorem claim_C2 (c : List Block) (w : Wallet) (hok : chainOk c = true) :
    (syncChain c (syncChain c w)).best_height = (syncChain c w).best_height ∧
    (syncChain c (syncChain c w)).best_hash = (syncChain c w).best_hash ∧
    (∀ a, (syncChain c (syncChain c w)).total_assets_of a = (syncChain c w).total_assets_of a) ∧
    (syncChain c (syncChain c w)).net_worth = (syncChain c w).net_worth := by
  have hfix : syncChain c (syncChain c w) = syncChain c w := by
    have hsynced : SyncedState c (syncChain c w) := syncA_synced hok c.length (le_refl _) w
    exact syncA_fixpoint hok c.length (chainOk_length_pos hok) hsynced
  rw [hfix]
  exact ⟨rfl, rfl, fun a => rfl, rfl⟩

theorem claim_C2_witness :
    (syncChain chainA (syncChain chainA (Wallet.new [Address.Alice]))).best_height =
      (syncChain chainA (Wallet.new [Address.Alice])).best_height ∧
    (syncChain chainA (syncChain chainA (Wallet.new [Address.Alice]))).total_assets_of
        Address.Alice =
      (syncChain chainA (Wallet.new [Address.Alice])).total_assets_of Address.Alice :=
  ⟨(claim_C2 chainA (Wallet.new [Address.Alice]) (by decide)).1,
   (claim_C2 chainA (Wallet.new [Address.Alice]) (by decide)).2.2.1 Address.Alice⟩

/-- A wallet state tracking no addresses while holding a coin (such states are
built directly by the repo's own tests, which insert into `wallet.coins`). -/
def w4 : Wallet :=
  { addresses := []
    coins := [(7, { value := 10, owner := .Bob })]
    best_block_height := 0
    best_block_hash := Block.genesis.id }

/-- C4: the claim fails on the code.  `create_automatic_transaction` on a
wallet with no tracked addresses, when coin selection leaves a positive
surplus, reaches `self.addresses.iter().next().unwrap()` and panics (modelled
as `none`) instead of returning a typed `WalletError`. -/
theorem claim_C4 : w4.create_automatic_transaction Address.Bob 5 0 = none := by decide

/-- Another no-address wallet holding a single 20-bone coin. -/
def w5 : Wallet :=
  { addresses := []
    coins := [(9, { value := 20, owner := .Charlie })]
    best_block_height := 0
    best_block_hash := Block.genesis.id }

/-- C5: the claim fails on the code.  With no tracked addresses and a
selection surplus of 15 (> 0), the call panics (modelled as `none`) rather
than failing with `NoOwnedAddresses` — the error variant wallet.rs documents
for exactly this situation is never produced. -/
theorem claim_C5 :
    w5.create_automatic_transaction Address.Bob 4 1 = none ∧
    w5.create_automatic_transaction Address.Bob 4 1 ≠
      some (.error WalletError.NoOwnedAddresses) := by
  refine ⟨by decide, by decide⟩

/-- C9: when the wallet is already on the canonical chain at its height (the
chain has only grown by `m` blocks), one `sync()` issues exactly `2 * m + 3`
queries: one rollback probe, one consistency re-check, and two per new block
plus the final probe that comes back empty — linear in `m`, independent of
the synced height. -/
theorem claim_C9 (c : List Block) (w : Wallet) (b : Block) (m : Nat)
    (hok : chainOk c = true)
    (hget : c.get? w.best_block_height = some b)
    (hhash : w.best_block_hash = b.id)
    (hm : c.length = w.best_block_height + m + 1) :
    syncQueries (NodeEndpoint.ofChain c) c.length w = 2 * m + 3 := by
  unfold syncQueries
  rw [syncA_on_chain hok hget hhash c.length (by omega)]
  show 2 * (c.length - (w.best_block_height + 1)) + 3 = 2 * m + 3
  omega

theorem claim_C9_witness :
    syncQueries (NodeEndpoint.ofChain chainA) chainA.length (Wallet.new [Address.Alice]) =
      2 * 2 + 3 :=
  claim_C9 chainA (Wallet.new [Address.Alice]) Block.genesis 2 (by decide) rfl rfl rfl

/-- C3: transactions of a fetched block are applied in listed order, input
removals before output insertions (this is how `applyTransaction` and
`applyBody` are built from the source loop).  Consequently, for a chain whose
tip block lists a transaction `ta` and, later in the same body, a transaction
`tb` spending a coin `ta` created at output index `j`, a full sync from
genesis leaves the intermediate coin id absent from the store, while each of
`tb`'s own outputs with a tracked owner is present under its derived id. -/
theorem claim_C3 (c : List Block) (addrs : List Address) (bl : Block)
    (pre mid : List Transaction) (ta tb : Transaction) (j : Nat)
    (hok : chainOk c = true)
    (hlast : c.get? (c.length - 1) = some bl)
    (hbody : bl.body = pre ++ ta :: (mid ++ [tb]))
    (hspend : ∃ inp ∈ tb.inputs, inp.coin_id = Transaction.coin_id ta bl.number j) :
    (∀ cn, (Transaction.coin_id ta bl.number j, cn) ∉ (replayFromGenesis c addrs).coins) ∧
    (∀ i cn, tb.outputs.get? i = some cn → cn.owner ∈ addrs →
      (Transaction.coin_id tb bl.number i, cn) ∈ (replayFromGenesis c addrs).coins) := by
  have hlen2 : 2 ≤ c.length := by
    by_contra hcon
    have hlen1 : c.length = 1 := by
      have := chainOk_length_pos hok
      omega
    have hbl : bl = Block.genesis := by
      rw [hlen1] at hlast
      have h0 : c.get? 0 = some bl := hlast
      rw [chainOk_get_zero hok] at h0
      exact (Option.some.inj h0).symm
    rw [hbl] at hbody
    simp [Block.genesis] at hbody
  obtain ⟨midb, hdecomp⟩ := drop_one_decomp hlen2 hlast
  have hw : replayFromGenesis c addrs =
      applyBlockW (midb.foldl applyBlockW (Wallet.new addrs)) bl := by
    unfold replayFromGenesis
    rw [syncChain_fresh hok addrs, hdecomp, List.foldl_append]
    rfl
  have haddr : (midb.foldl applyBlockW (Wallet.new addrs)).addresses = addrs := by
    rw [foldl_applyBlockW_addresses]
    rfl
  have hcoins : (applyBlockW (midb.foldl applyBlockW (Wallet.new addrs)) bl).coins =
      applyBody addrs bl.number bl.body (midb.foldl applyBlockW (Wallet.new addrs)).coins := by
    show applyBody (midb.foldl applyBlockW (Wallet.new addrs)).addresses bl.number bl.body _ =
      applyBody addrs bl.number bl.body _
    rw [haddr]
  have hbody2 : bl.body = (pre ++ ta :: mid) ++ [tb] := by
    rw [hbody]
    simp
  constructor
  · intro cn
    rw [hw, hcoins, hbody2, applyBody_append_single]
    exact applyTransaction_spends_not_mem hspend cn
  · intro i cn hi ho
    rw [hw, hcoins, hbody2, applyBody_append_single]
    exact applyTransaction_output_mem hi ho

/-- A block-1 transaction minting 100 to Alice. -/
def txMint3 : Transaction :=
  { inputs := [Input.dummy], outputs := [{ value := 100, owner := .Alice }] }

/-- A transaction in the same block spending the coin `txMint3` creates at
block height 1, output 0, and paying 100 to Bob. -/
def txSpend3 : Transaction :=
  { inputs := [{ coin_id := Transaction.coin_id txMint3 1 0, signature := .Valid .Alice }]
    outputs := [{ value := 100, owner := .Bob }] }

def blk3 : Block := { parent := Block.genesis.id, number := 1, body := [txMint3, txSpend3] }

def chain3 : List Block := [Block.genesis, blk3]

theorem claim_C3_witness :
    (Transaction.coin_id txMint3 1 0, ({ value := 100, owner := Address.Alice } : Coin)) ∉
      (replayFromGenesis chain3 [Address.Alice, Address.Bob]).coins ∧
    (Transaction.coin_id txSpend3 1 0, ({ value := 100, owner := Address.Bob } : Coin)) ∈
      (replayFromGenesis chain3 [Address.Alice, Address.Bob]).coins := by
  have h := claim_C3 chain3 [Address.Alice, Address.Bob] blk3 [] [] txMint3 txSpend3 0
    (by decide) rfl rfl
    ⟨{ coin_id := Transaction.coin_id txMint3 1 0, signature := .Valid .Alice },
      List.mem_cons_self _ _, rfl⟩
  exact ⟨h.1 _, h.2 0 _ rfl (by decide)⟩

/-- A wallet tracking Alice with an empty coin store. -/
def w6 : Wallet := Wallet.new [Address.Alice]

/-- C6 counterexample: with an input id absent from the (empty) store AND a
zero-valued output, the code returns `ZeroCoinValue`, not the `UnknownCoin`
the claim's precedence order demands: the source checks zero-valued outputs
(lib.rs line 101) before unknown input ids (line 106). -/
theorem claim_C6_counterexample :
    w6.coins = [] ∧
    w6.create_manual_transaction [5] [{ value := 0, owner := Address.Bob }] =
      .error WalletError.ZeroCoinValue ∧
    w6.create_manual_transaction [5] [{ value := 0, owner := Address.Bob }] ≠
      .error WalletError.UnknownCoin := by
  refine ⟨rfl, by decide, by decide⟩

/-- C6 as amended: the precedence order of the code is ZeroInputs, then
ZeroCoinValue, then UnknownCoin; each error is returned exactly when its
condition is the first to hold, and the call succeeds, with one
`Valid(Alice)`-signed input per id and the given outputs, exactly when no
condition holds. -/
theorem claim_C6 (w : Wallet) (ids : List CoinId) (outs : List Coin) :
    (w.create_manual_transaction ids outs = .error .ZeroInputs ↔ ids = []) ∧
    (w.create_manual_transaction ids outs = .error .ZeroCoinValue ↔
      ids ≠ [] ∧ ∃ cn ∈ outs, cn.value = 0) ∧
    (w.create_manual_transaction ids outs = .error .UnknownCoin ↔
      ids ≠ [] ∧ (∀ cn ∈ outs, cn.value ≠ 0) ∧ ∃ i ∈ ids, ∀ p ∈ w.coins, p.1 ≠ i) ∧
    (ids ≠ [] ∧ (∀ cn ∈ outs, cn.value ≠ 0) ∧ (∀ i ∈ ids, ∃ p ∈ w.coins, p.1 = i) →
      w.create_manual_transaction ids outs =
        .ok { inputs := ids.map fun cid => { coin_id := cid, signature := .Valid .Alice }
              outputs := outs }) := by
  have hzero_iff : (outs.any fun cn => cn.value == 0) = true ↔ ∃ cn ∈ outs, cn.value = 0 := by
    rw [List.any_eq_true]
    simp
  have hunk_iff : (ids.any fun cid => !(w.coins.any fun p => p.1 == cid)) = true ↔
      ∃ i ∈ ids, ∀ p ∈ w.coins, p.1 ≠ i := by
    rw [List.any_eq_true]
    constructor
    · rintro ⟨i, hi, hb⟩
      refine ⟨i, hi, fun p hp heq => ?_⟩
      simp only [Bool.not_eq_true'] at hb
      rw [List.any_eq_false] at hb
      exact hb p hp (by simp [heq])
    · rintro ⟨i, hi, hall⟩
      refine ⟨i, hi, ?_⟩
      simp only [Bool.not_eq_true']
      rw [List.any_eq_false]
      intro p hp
      simp only [beq_iff_eq]
      exact hall p hp
  have heq : w.create_manual_transaction ids outs =
      if ids = [] then .error .ZeroInputs
      else if (outs.any fun cn => cn.value == 0) = true then .error .ZeroCoinValue
      else if (ids.any fun cid => !(w.coins.any fun p => p.1 == cid)) = true then
        .error .UnknownCoin
      else .ok { inputs := ids.map fun cid => { coin_id := cid, signature := .Valid .Alice }
                 outputs := outs } := rfl
  by_cases h1 : ids = []
  · have hres : w.create_manual_transaction ids outs = .error .ZeroInputs := by
      rw [heq, if_pos h1]
    refine ⟨?_, ?_, ?_, ?_⟩
    · rw [hres]
      exact ⟨fun _ => h1, fun _ => rfl⟩
    · rw [hres]
      constructor
      · intro hcon
        exact absurd (Except.error.inj hcon) (by decide)
      · rintro ⟨hne, -⟩
        exact absurd h1 hne
    · rw [hres]
      constructor
      · intro hcon
        exact absurd (Except.error.inj hcon) (by decide)
      · rintro ⟨hne, -⟩
        exact absurd h1 hne
    · rintro ⟨hne, -⟩
      exact absurd h1 hne
  · by_cases h2 : (outs.any fun cn => cn.value == 0) = true
    · have h2e : ∃ cn ∈ outs, cn.value = 0 := hzero_iff.mp h2
      have hres : w.create_manual_transaction ids outs = .error .ZeroCoinValue := by
        rw [heq, if_neg h1, if_pos h2]
      refine ⟨?_, ?_, ?_, ?_⟩
      · rw [hres]
        constructor
        · intro hcon
          exact absurd (Except.error.inj hcon) (by decide)
        · intro hids
          exact absurd hids h1
      · rw [hres]
        exact ⟨fun _ => ⟨h1, h2e⟩, fun _ => rfl⟩
      · rw [hres]
        constructor
        · intro hcon
          exact absurd (Except.error.inj hcon) (by decide)
        · rintro ⟨-, hall, -⟩
          obtain ⟨cn, hcn, hzv⟩ := h2e
          exact absurd hzv (hall cn hcn)
      · rintro ⟨-, hall, -⟩
        obtain ⟨cn, hcn, hzv⟩ := h2e
        exact absurd hzv (hall cn hcn)
    · have h2n : ∀ cn ∈ outs, cn.value ≠ 0 := fun cn hcn hzv => h2 (hzero_iff.mpr ⟨cn, hcn, hzv⟩)
      by_cases h3 : (ids.any fun cid => !(w.coins.any fun p => p.1 == cid)) = true
      · have h3e := hunk_iff.mp h3
        have hres : w.create_manual_transaction ids outs = .error .UnknownCoin := by
          rw [heq, if_neg h1, if_neg h2, if_pos h3]
        refine ⟨?_, ?_, ?_, ?_⟩
        · rw [hres]
          constructor
          · intro hcon
            exact absurd (Except.error.inj hcon) (by decide)
          · intro hids
            exact absurd hids h1
        · rw [hres]
          constructor
          · intro hcon
            exact absurd (Except.error.inj hcon) (by decide)
          · rintro ⟨-, cn, hcn, hzv⟩
            exact absurd hzv (h2n cn hcn)
        · rw [hres]
          exact ⟨fun _ => ⟨h1, h2n, h3e⟩, fun _ => rfl⟩
        · rintro ⟨-, -, hall⟩
          obtain ⟨i, hi, hnone⟩ := h3e
          obtain ⟨p, hp, hpi⟩ := hall i hi
          exact absurd hpi (hnone p hp)
      · have h3n : ∀ i ∈ ids, ∃ p ∈ w.coins, p.1 = i := by
          intro i hi
          by_contra hcon
          push_neg at hcon
          exact h3 (hunk_iff.mpr ⟨i, hi, hcon⟩)
        have hres : w.create_manual_transaction ids outs =
            .ok { inputs := ids.map fun cid => { coin_id := cid, signature := .Valid .Alice }
                  outputs := outs } := by
          rw [heq, if_neg h1, if_neg h2, if_neg h3]
        refine ⟨?_, ?_, ?_, ?_⟩
        · rw [hres]
          constructor
          · intro hcon
            exact Except.noConfusion hcon
          · intro hids
            exact absurd hids h1
        · rw [hres]
          constructor
          · intro hcon
            exact Except.noConfusion hcon
          · rintro ⟨-, cn, hcn, hzv⟩
            exact absurd hzv (h2n cn hcn)
        · rw [hres]
          constructor
          · intro hcon
            exact Except.noConfusion hcon
          · rintro ⟨-, -, i, hi, hnone⟩
            obtain ⟨p, hp, hpi⟩ := h3n i hi
            exact absurd hpi (hnone p hp)
        · intro _
          exact hres

theorem claim_C6_witness :
    w6.create_manual_transaction [] [] = .error WalletError.ZeroInputs :=
  (claim_C6 w6 [] []).1.mpr rfl

theorem selectLoop_total (needed : Nat) : ∀ (l : List (CoinId × Coin)) (acc : Nat),
    (selectLoop needed l acc).2 =
      acc + ((selectLoop needed l acc).1.map fun p => p.2.value).sum := by
  intro l
  induction l with
  | nil =>
    intro acc
    simp [selectLoop]
  | cons p rest ih =>
    intro acc
    rw [selectLoop]
    by_cases h : needed ≤ acc + p.2.value
    · simp only [if_pos h]
      simp
    · simp only [if_neg h]
      simp only [List.map_cons, List.sum_cons]
      rw [ih (acc + p.2.value)]
      omega

/-- C7: every successful automatic transaction pays `payment` to the
recipient first; carries exactly the selected coins as inputs, each signed
with its owner's tag; has a change output, owned by one of the wallet's own
addresses and worth exactly the surplus, precisely when the selected total
strictly exceeds `payment + tip`; and its input total exceeds its output
total by exactly `tip`. -/
theorem claim_C7 (w : Wallet) (recipient : Address) (payment tip : Nat) (tx : Transaction)
    (h : w.create_automatic_transaction recipient payment tip = some (.ok tx)) :
    tx.inputs = (selectLoop (payment + tip) w.coins 0).1.map
      (fun p => { coin_id := p.1, signature := .Valid p.2.owner }) ∧
    tx.outputs.head? = some { value := payment, owner := recipient } ∧
    (payment + tip < (selectLoop (payment + tip) w.coins 0).2 ↔ tx.outputs.length = 2) ∧
    (payment + tip < (selectLoop (payment + tip) w.coins 0).2 →
      ∃ a, a ∈ w.addresses ∧
        tx.outputs = [{ value := payment, owner := recipient },
          { value := (selectLoop (payment + tip) w.coins 0).2 - (payment + tip), owner := a }]) ∧
    (tx.outputs.map fun cn => cn.value).sum + tip =
      ((selectLoop (payment + tip) w.coins 0).1.map fun p => p.2.value).sum := by
  have htot := selectLoop_total (payment + tip) w.coins 0
  by_cases hp : payment = 0
  · simp [Wallet.create_automatic_transaction, hp] at h
  · by_cases hins : (selectLoop (payment + tip) w.coins 0).2 < payment + tip
    · simp [Wallet.create_automatic_transaction, hp, hins] at h
    · by_cases hchange : payment + tip < (selectLoop (payment + tip) w.coins 0).2
      · cases haddr : w.addresses with
        | nil =>
          simp [Wallet.create_automatic_transaction, hp, hins, hchange, haddr] at h
        | cons a rest =>
          simp only [Wallet.create_automatic_transaction, if_neg hp, if_neg hins,
            if_pos hchange, haddr, Option.some.injEq] at h
          have htx := (Except.ok.inj h).symm
          subst htx
          refine ⟨rfl, rfl, ?_, ?_, ?_⟩
          · exact ⟨fun _ => rfl, fun _ => hchange⟩
          · intro _
            exact ⟨a, by simp [haddr], rfl⟩
          · simp only [List.map_cons, List.map_nil, List.sum_cons, List.sum_nil]
            rw [Nat.zero_add] at htot
            rw [← htot]
            omega
      · simp only [Wallet.create_automatic_transaction, if_neg hp, if_neg hins,
          if_neg hchange, Option.some.injEq] at h
        have htx := (Except.ok.inj h).symm
        subst htx
        refine ⟨rfl, rfl, ?_, ?_, ?_⟩
        · constructor
          · intro hcon
            exact absurd hcon hchange
          · intro hcon
            simp at hcon
        · intro hcon
          exact absurd hcon hchange
        · simp only [List.map_cons, List.map_nil, List.sum_cons, List.sum_nil]
          rw [Nat.zero_add] at htot
          rw [← htot]
          omega

/-- A wallet tracking Alice with one 10-bone coin owned by Alice. -/
def w7 : Wallet :=
  { addresses := [Address.Alice]
    coins := [(3, { value := 10, owner := Address.Alice })]
    best_block_height := 0
    best_block_hash := Block.genesis.id }

/-- The transaction `w7.create_automatic_transaction Bob 5 2` produces:
pays 5 to Bob, returns the surplus 3 to Alice, burns the tip 2. -/
def tx7 : Transaction :=
  { inputs := [{ coin_id := 3, signature := .Valid Address.Alice }]
    outputs := [{ value := 5, owner := Address.Bob }, { value := 3, owner := Address.Alice }] }

theorem claim_C7_witness :
    tx7.outputs.head? = some { value := 5, owner := Address.Bob } ∧
    (tx7.outputs.map fun cn => cn.value).sum + 2 =
      ((selectLoop 7 w7.coins 0).1.map fun p => p.2.value).sum := by
  have h := claim_C7 w7 Address.Bob 5 2 tx7 (by decide)
  exact ⟨h.2.1, h.2.2.2.2⟩

/-- C8: after any sequence of syncs (each against any node, any fuel) from a
fresh wallet, every stored coin is owned by a tracked address, and therefore
`net_worth` equals the sum over the tracked-owner coins only — no untracked
value is ever counted. -/
theorem claim_C8 (addrs : List Address) (l : List (NodeEndpoint × Nat)) :
    (∀ p ∈ (syncMany l (Wallet.new addrs)).coins, p.2.owner ∈ addrs) ∧
    (syncMany l (Wallet.new addrs)).net_worth =
      (((syncMany l (Wallet.new addrs)).coins.filter fun p =>
        decide (p.2.owner ∈ addrs)).map fun p => p.2.value).sum := by
  have hinv : OwnedInv (syncMany l (Wallet.new addrs)) :=
    syncMany_owner l (Wallet.new addrs) (fun p hp => absurd hp (List.not_mem_nil p))
  have haddr : (syncMany l (Wallet.new addrs)).addresses = addrs := by
    rw [syncMany_addresses]
    rfl
  have hmain : ∀ p ∈ (syncMany l (Wallet.new addrs)).coins, p.2.owner ∈ addrs := by
    intro p hp
    have := hinv p hp
    rwa [haddr] at this
  refine ⟨hmain, ?_⟩
  have hfil : ((syncMany l (Wallet.new addrs)).coins.filter fun p =>
      decide (p.2.owner ∈ addrs)) = (syncMany l (Wallet.new addrs)).coins :=
    List.filter_eq_self.mpr (fun p hp => by simp [hmain p hp])
  rw [hfil]
  rfl

theorem claim_C8_witness :
    (syncMany [(NodeEndpoint.ofChain chainA, 3)] (Wallet.new [Address.Alice])).net_worth =
      (((syncMany [(NodeEndpoint.ofChain chainA, 3)] (Wallet.new [Address.Alice])).coins.filter
        fun p => decide (p.2.owner ∈ [Address.Alice])).map fun p => p.2.value).sum :=
  (claim_C8 [Address.Alice] [(NodeEndpoint.ofChain chainA, 3)]).2

/-- C10: every input of a successful manual transaction is signed
`Valid(Alice)`, whatever the coin's owner and whatever addresses the wallet
tracks (lib.rs line 117 hard-codes the signature). -/
theorem claim_C10 (w : Wallet) (ids : List CoinId) (outs : List Coin) (tx : Transaction)
    (h : w.create_manual_transaction ids outs = .ok tx) :
    ∀ inp ∈ tx.inputs, inp.signature = .Valid .Alice := by
  unfold Wallet.create_manual_transaction at h
  split_ifs at h
  have htx := (Except.ok.inj h).symm
  subst htx
  intro inp hmem
  obtain ⟨cid, _, rfl⟩ := List.mem_map.mp hmem
  rfl

/-- A wallet tracking Bob with one coin owned by Bob. -/
def w10 : Wallet :=
  { addresses := [Address.Bob]
    coins := [(4, { value := 7, owner := Address.Bob })]
    best_block_height := 0
    best_block_hash := Block.genesis.id }

def tx10 : Transaction :=
  { inputs := [{ coin_id := 4, signature := .Valid Address.Alice }]
    outputs := [{ value := 7, owner := Address.Charlie }] }

theorem claim_C10_witness :
    ({ coin_id := 4, signature := Signature.Valid Address.Alice } : Input).signature =
      Signature.Valid Address.Alice :=
  claim_C10 w10 [4] [{ value := 7, owner := Address.Charlie }] tx10 (by decide) _ (by decide)
